import Mathlib

/-!
Verification of the `objcache` LRU backend
(`src/storage/objcache/lru.go`) of the corestoreio repository.

The backend adapter (`NewLRU`, `lruCache.Set/Get/Delete/Truncate/Close`,
`itemBySize`, `itemByCount`) is embedded directly from the source file.
The eviction engine (`github.com/corestoreio/pkg/storage/lru`) is not part
of the provided sources; its operations are modelled from the spec (§4.1).
Byte slices are modelled as `List Nat`; Go `error` results as
`Option String`, where `none` is the nil error.
-/

namespace Objcache

/-- A value stored in the eviction engine, as the adapter wraps it:
`itemByCount` (count mode, `Size() = 1`) or `itemBySize` (size mode,
`Size() = len`). The constructor records the Go dynamic type, which the
adapter's `Get` later inspects with a type assertion. -/
inductive LruValue where
  | byCount (data : List Nat)
  | bySize (data : List Nat)
deriving DecidableEq

/-- `Size()` of a stored value: `itemByCount.Size` returns 1
(src line 74), `itemBySize.Size` returns the byte length (src line 70). -/
def LruValue.size : LruValue → Nat
  | .byCount _ => 1
  | .bySize d => d.length

/-- The raw bytes under either wrapper. -/
def LruValue.data : LruValue → List Nat
  | .byCount d => d
  | .bySize d => d

/-- Modelled from the spec: the eviction engine (`lru.Cache`, §3, §4.1),
missing from the sources. Entries are kept least-recently-used first,
most-recently-used last; keys unique; a fixed signed capacity. -/
structure Cache where
  entries : List (String × LruValue)
  capacity : Int
deriving DecidableEq

/-- Total weight of a list of entries (§3: running total weight). -/
def totalWeight (es : List (String × LruValue)) : Nat :=
  (es.map (fun e => e.2.size)).sum

/-- Remove every entry whose key equals `k`. -/
def eraseKey (k : String) (es : List (String × LruValue)) :
    List (String × LruValue) :=
  es.filter (fun e => !(e.1 == k))

/-- Modelled from the spec (§4.1 Set): while total weight exceeds
Capacity, repeatedly evict the least-recently-used entry (the head);
the single remaining (just-inserted) item is retained even when its own
weight exceeds Capacity. -/
def evict (cap : Int) : List (String × LruValue) → List (String × LruValue)
  | [] => []
  | e :: es =>
    if (totalWeight (e :: es) : Int) ≤ cap then e :: es
    else
      match es with
      | [] => [e]
      | _ :: _ => evict cap es

/-- Modelled from the spec (§4.1 Set): insert or replace the entry for
`key`, promote it to most-recently-used, then evict while over capacity. -/
def Cache.set (c : Cache) (k : String) (v : LruValue) : Cache :=
  { c with entries := evict c.capacity (eraseKey k c.entries ++ [(k, v)]) }

/-- First entry stored under key `k`, if any. -/
def lookupVal (k : String) (es : List (String × LruValue)) : Option LruValue :=
  (es.find? (fun e => e.1 == k)).map (fun e => e.2)

/-- Modelled from the spec (§4.1 Get): on hit, promote the entry to
most-recently-used and return its value; on miss return `none` with the
cache unchanged. -/
def Cache.get (c : Cache) (k : String) : Option LruValue × Cache :=
  match c.entries.find? (fun e => e.1 == k) with
  | none => (none, c)
  | some e => (some e.2, { c with entries := eraseKey k c.entries ++ [e] })

/-- Modelled from the spec (§4.1 Delete): remove the entry if present;
a no-op if absent. -/
def Cache.delete (c : Cache) (k : String) : Cache :=
  { c with entries := eraseKey k c.entries }

/-- Modelled from the spec (§4.1 Clear): remove all entries; Capacity
unchanged. -/
def Cache.clear (c : Cache) : Cache :=
  { c with entries := [] }

/-- `LRUOptions` (src lines 27-32). `LRUCache` is the optional pre-built
engine. -/
structure LRUOptions where
  Capacity : Int
  TrackBySize : Bool
  TrackByObjectCount : Bool
  LRUCache : Option Cache
deriving DecidableEq

/-- The option normalization performed by `NewLRU` (src lines 41-60):
the `switch` resolving mode and capacity defaults, then the engine
construction when none was supplied. -/
def resolveOptions (o? : Option LRUOptions) : LRUOptions :=
  let o : LRUOptions := match o? with
    | none => ⟨0, false, false, none⟩
    | some o => o
  let o1 :=
    if o.TrackBySize && (o.Capacity == 0) then { o with Capacity := 67108864 }
    else if o.TrackByObjectCount && (o.Capacity == 0) then { o with Capacity := 5000 }
    else if o.TrackBySize then o
    else if o.TrackByObjectCount then o
    else { o with TrackByObjectCount := true, Capacity := 5000 }
  match o1.LRUCache with
  | none => { o1 with LRUCache := some ⟨[], o1.Capacity⟩ }
  | some _ => o1

/-- The backend `lruCache` (src lines 34-37): the resolved options with
the engine state inlined (the source holds it behind a pointer). -/
structure lruCache where
  trackBySize : Bool
  trackByObjectCount : Bool
  cache : Cache
deriving DecidableEq

/-- `NewLRU` (src lines 41-66): resolves options and returns the factory,
a function producing the backend instance together with a nil error. -/
def NewLRU (o? : Option LRUOptions) : Unit → lruCache × Option String :=
  let o := resolveOptions o?
  fun _ =>
    ({ trackBySize := o.TrackBySize
       trackByObjectCount := o.TrackByObjectCount
       cache := o.LRUCache.getD ⟨[], o.Capacity⟩ }, none)

/-- The wrapping performed per item in `lruCache.Set` (src lines 78-81):
`itemByCount` by default, `itemBySize` when `TrackBySize` is set. -/
def wrapValue (trackBySize : Bool) (d : List Nat) : LruValue :=
  if trackBySize then .bySize d else .byCount d

/-- One iteration of `lruCache.Set`'s loop (src lines 77-83). -/
def setOne (s : lruCache) (k : String) (d : List Nat) : lruCache :=
  { s with cache := s.cache.set k (wrapValue s.trackBySize d) }

/-- `lruCache.Set`'s loop over keys, indexing `values[i]`; `none`
models the index-out-of-range panic when values is shorter than keys. -/
def setLoop (s : lruCache) : List String → List (List Nat) → Option lruCache
  | [], _ => some s
  | k :: ks, d :: ds => setLoop (setOne s k d) ks ds
  | _ :: _, [] => none

/-- `lruCache.Set` (src lines 76-85): stores every key/value pair,
ignoring the context and the expiration durations, and returns nil error.
`none` models a runtime panic (no return value at all). -/
def lruCache.Set (s : lruCache) (keys : List String) (values : List (List Nat))
    (_exps : List Int) : Option (lruCache × Option String) :=
  (setLoop s keys values).map (fun s2 => (s2, none))

/-- The Go type assertion `itm.(itemByCount)` (src line 93): succeeds only
on a count-wrapped value, otherwise panics (`none`). -/
def assertByCount : LruValue → Option (List Nat)
  | .byCount d => some d
  | .bySize _ => none

/-- The Go type assertion `itm.(itemBySize)` (src line 95). -/
def assertBySize : LruValue → Option (List Nat)
  | .bySize d => some d
  | .byCount _ => none

/-- The hit branch of `lruCache.Get` (src lines 92-96): the assertion
chosen by `TrackByObjectCount`. -/
def unwrapFor (trackByObjectCount : Bool) (v : LruValue) : Option (List Nat) :=
  if trackByObjectCount then assertByCount v else assertBySize v

/-- `lruCache.Get`'s loop (src lines 89-100): per key an engine lookup,
appending the asserted bytes on hit and `none` on miss. The outer `none`
models the type-assertion panic. -/
def getLoop (s : lruCache) : List String → Option (List (Option (List Nat)) × lruCache)
  | [] => some ([], s)
  | k :: ks =>
    match s.cache.get k with
    | (none, c2) =>
      (getLoop { s with cache := c2 } ks).map (fun r => (none :: r.1, r.2))
    | (some itm, c2) =>
      match unwrapFor s.trackByObjectCount itm with
      | none => none
      | some d =>
        (getLoop { s with cache := c2 } ks).map (fun r => (some d :: r.1, r.2))

/-- `lruCache.Get` (src lines 88-102): values aligned with keys, plus the
always-nil error. -/
def lruCache.Get (s : lruCache) (keys : List String) :
    Option (List (Option (List Nat)) × Option String × lruCache) :=
  (getLoop s keys).map (fun r => (r.1, none, r.2))

/-- `lruCache.Truncate` (src lines 104-107): clears the engine, nil error. -/
def lruCache.Truncate (s : lruCache) : lruCache × Option String :=
  ({ s with cache := s.cache.clear }, none)

/-- `lruCache.Delete` (src lines 109-114): engine delete per key, nil error. -/
def lruCache.Delete (s : lruCache) (keys : List String) : lruCache × Option String :=
  (keys.foldl (fun t k => { t with cache := t.cache.delete k }) s, none)

/-- `lruCache.Close` (src lines 116-119): clears the engine, nil error. -/
def lruCache.Close (s : lruCache) : lruCache × Option String :=
  ({ s with cache := s.cache.clear }, none)

/-- A sequence of single-key backend `Set` calls. -/
def applySets (s : lruCache) (ops : List (String × List Nat)) : lruCache :=
  ops.foldl (fun t op => setOne t op.1 op.2) s

/-- Scenario helper: a single-key `Set` threaded through `Option`. -/
def stepSet (s? : Option lruCache) (k : String) (d : List Nat) : Option lruCache :=
  s?.bind (fun s => (lruCache.Set s [k] [d] [0]).map (fun r => r.1))

/-- Scenario helper: a single-key `Get`, keeping only the new state. -/
def stepGet (s? : Option lruCache) (k : String) : Option lruCache :=
  s?.bind (fun s => (lruCache.Get s [k]).map (fun r => r.2.2))

/-- Scenario helper: the value sequence a `Get` returns. -/
def readGet (s? : Option lruCache) (keys : List String) :
    Option (List (Option (List Nat))) :=
  s?.bind (fun s => (lruCache.Get s keys).map (fun r => r.1))

/-! ## Helper lemmas about the eviction loop -/

/-- Eviction never touches a singleton: the last (just-inserted) entry is
retained even above capacity. -/
theorem evict_single (cap : Int) (e : String × LruValue) : evict cap [e] = [e] := by
  have h : evict cap [e]
      = if (totalWeight [e] : Int) ≤ cap then [e] else [e] := rfl
  rw [h, ite_self]

/-- A list within capacity is left unchanged by eviction. -/
theorem evict_of_le (cap : Int) (a : String × LruValue)
    (es : List (String × LruValue)) (h : (totalWeight (a :: es) : Int) ≤ cap) :
    evict cap (a :: es) = a :: es := by
  cases es with
  | nil => exact evict_single cap a
  | cons b l =>
    have he : evict cap (a :: b :: l)
        = if (totalWeight (a :: b :: l) : Int) ≤ cap then a :: b :: l
          else evict cap (b :: l) := rfl
    rw [he, if_pos h]

/-- Over capacity with at least two entries, the least-recently-used head
is evicted. -/
theorem evict_cons_of_gt (cap : Int) (a b : String × LruValue)
    (l : List (String × LruValue))
    (h : ¬ (totalWeight (a :: b :: l) : Int) ≤ cap) :
    evict cap (a :: b :: l) = evict cap (b :: l) := by
  have he : evict cap (a :: b :: l)
      = if (totalWeight (a :: b :: l) : Int) ≤ cap then a :: b :: l
        else evict cap (b :: l) := rfl
  rw [he, if_neg h]

/-- After evicting from a list whose last element is the freshly inserted
entry, either the total weight is within capacity or only that last entry
remains. -/
theorem evict_keeps_last (cap : Int) :
    ∀ (l : List (String × LruValue)) (e : String × LruValue),
      (totalWeight (evict cap (l ++ [e])) : Int) ≤ cap ∨ evict cap (l ++ [e]) = [e] := by
  intro l
  induction l with
  | nil =>
    intro e
    by_cases h : (totalWeight [e] : Int) ≤ cap
    · left
      rw [List.nil_append, evict_single]
      exact h
    · right
      rw [List.nil_append, evict_single]
  | cons a l ih =>
    intro e
    by_cases h : (totalWeight (a :: (l ++ [e])) : Int) ≤ cap
    · left
      rw [List.cons_append, evict_of_le cap a (l ++ [e]) h]
      exact h
    · have hstep : evict cap ((a :: l) ++ [e]) = evict cap (l ++ [e]) := by
        cases l with
        | nil => exact evict_cons_of_gt cap a e [] h
        | cons b l2 => exact evict_cons_of_gt cap a b (l2 ++ [e]) h
      rw [hstep]
      exact ih e

/-- The eviction result is the inserted entry prefixed by entries drawn
from the old list. -/
theorem evict_append_single (cap : Int) :
    ∀ (l : List (String × LruValue)) (e : String × LruValue),
      ∃ l2, evict cap (l ++ [e]) = l2 ++ [e] ∧ ∀ x ∈ l2, x ∈ l := by
  intro l
  induction l with
  | nil =>
    intro e
    exact ⟨[], by rw [List.nil_append, evict_single], by simp⟩
  | cons a l ih =>
    intro e
    by_cases h : (totalWeight (a :: (l ++ [e])) : Int) ≤ cap
    · refine ⟨a :: l, ?_, fun x hx => hx⟩
      rw [List.cons_append, evict_of_le cap a (l ++ [e]) h]
    · have hstep : evict cap ((a :: l) ++ [e]) = evict cap (l ++ [e]) := by
        cases l with
        | nil => exact evict_cons_of_gt cap a e [] h
        | cons b l2 => exact evict_cons_of_gt cap a b (l2 ++ [e]) h
      obtain ⟨l2, hl2, hmem⟩ := ih e
      exact ⟨l2, by rw [hstep, hl2], fun x hx => List.mem_cons_of_mem a (hmem x hx)⟩

@[simp] theorem setOne_trackBySize (s : lruCache) (k : String) (d : List Nat) :
    (setOne s k d).trackBySize = s.trackBySize := rfl

@[simp] theorem setOne_trackByObjectCount (s : lruCache) (k : String) (d : List Nat) :
    (setOne s k d).trackByObjectCount = s.trackByObjectCount := rfl

@[simp] theorem setOne_capacity (s : lruCache) (k : String) (d : List Nat) :
    (setOne s k d).cache.capacity = s.cache.capacity := rfl

theorem setOne_entries (s : lruCache) (k : String) (d : List Nat) :
    (setOne s k d).cache.entries
      = evict s.cache.capacity
          (eraseKey k s.cache.entries ++ [(k, wrapValue s.trackBySize d)]) := rfl

@[simp] theorem totalWeight_single (e : String × LruValue) :
    totalWeight [e] = e.2.size := by
  simp [totalWeight]

/-! ## Claim theorems -/

/-- C1: after each `Set` call of any sequence, the total retained weight is
at most the capacity, except exactly when the just-inserted item's own
weight exceeds capacity, in which case it is the only entry and the total
weight equals its weight. -/
theorem c1_capacity_invariant (s0 : lruCache) (ops : List (String × List Nat))
    (k : String) (v : List Nat) :
    (totalWeight (applySets s0 (ops ++ [(k, v)])).cache.entries : Int)
        ≤ (applySets s0 (ops ++ [(k, v)])).cache.capacity ∨
      ((applySets s0 (ops ++ [(k, v)])).cache.entries
          = [(k, wrapValue (applySets s0 (ops ++ [(k, v)])).trackBySize v)] ∧
        totalWeight (applySets s0 (ops ++ [(k, v)])).cache.entries
          = (wrapValue (applySets s0 (ops ++ [(k, v)])).trackBySize v).size ∧
        (applySets s0 (ops ++ [(k, v)])).cache.capacity
          < ((wrapValue (applySets s0 (ops ++ [(k, v)])).trackBySize v).size : Int)) := by
  have happ : applySets s0 (ops ++ [(k, v)]) = setOne (applySets s0 ops) k v := by
    simp [applySets, List.foldl_append]
  rw [happ]
  set t := applySets s0 ops with ht
  simp only [setOne_capacity, setOne_trackBySize, setOne_entries]
  rcases evict_keeps_last t.cache.capacity (eraseKey k t.cache.entries)
      (k, wrapValue t.trackBySize v) with h | h
  · exact Or.inl h
  · by_cases hle : ((wrapValue t.trackBySize v).size : Int) ≤ t.cache.capacity
    · left
      rw [h, totalWeight_single]
      exact hle
    · right
      refine ⟨h, ?_, lt_of_not_le hle⟩
      rw [h, totalWeight_single]

/-- C2: in count mode with capacity 2, after Set "a", Set "b", Get "a",
Set "c", the entry "b" has been evicted while "a" and "c" remain
retrievable: the Get hit on "a" promoted it, so "b" became the
least-recently-used victim. -/
theorem c2_lru_order_with_promotion :
    readGet (stepSet (stepGet (stepSet (stepSet
        (some (⟨false, true, ⟨[], 2⟩⟩ : lruCache)) "a" [0]) "b" [1]) "a") "c" [2])
        ["b", "a", "c"]
      = some [none, some [0], some [2]] := by decide

/-- C4: the stored weight is exactly 1 in count mode and exactly the byte
length in size mode, and `Set`'s wrapping is governed by the
`TrackBySize` flag. -/
theorem c4_weights (d : List Nat) :
    (LruValue.byCount d).size = 1 ∧
      (LruValue.bySize d).size = d.length ∧
      wrapValue true d = LruValue.bySize d ∧
      wrapValue false d = LruValue.byCount d ∧
      ∀ b : Bool, (wrapValue b d).size = if b then d.length else 1 := by
  refine ⟨rfl, rfl, rfl, rfl, ?_⟩
  intro b
  cases b <;> simp [wrapValue, LruValue.size]

/-- C5: `NewLRU` default resolution: size mode with zero capacity gives
67108864; count mode with zero capacity gives 5000; either flag with
non-zero capacity keeps the given capacity; with neither flag set the
mode becomes count and the capacity becomes 5000. -/
theorem c5_defaults (o : LRUOptions) :
    (o.TrackBySize = true → o.Capacity = 0 →
        (resolveOptions (some o)).Capacity = 67108864) ∧
      (o.TrackBySize = false → o.TrackByObjectCount = true → o.Capacity = 0 →
        (resolveOptions (some o)).Capacity = 5000) ∧
      ((o.TrackBySize = true ∨ o.TrackByObjectCount = true) → o.Capacity ≠ 0 →
        (resolveOptions (some o)).Capacity = o.Capacity) ∧
      (o.TrackBySize = false → o.TrackByObjectCount = false →
        (resolveOptions (some o)).TrackByObjectCount = true ∧
          (resolveOptions (some o)).Capacity = 5000) := by
  obtain ⟨cap, tbs, tboc, eng⟩ := o
  refine ⟨?_, ?_, ?_, ?_⟩
  · intro h1 h2
    subst h1; subst h2
    cases eng <;> simp [resolveOptions]
  · intro h1 h2 h3
    subst h1; subst h2; subst h3
    cases eng <;> simp [resolveOptions]
  · intro h1 h2
    have hc : (cap == (0 : Int)) = false := by simpa using h2
    cases tbs <;> cases tboc <;> cases eng <;>
      simp_all [resolveOptions, hc]
  · intro h1 h2
    subst h1; subst h2
    cases eng <;> simp [resolveOptions]

/-- C5 witness: the resolution rule evaluated at concrete option records. -/
theorem c5_defaults_witness :
    (resolveOptions (some ⟨0, true, false, none⟩)).Capacity = 67108864 ∧
      (resolveOptions (some ⟨0, false, true, none⟩)).Capacity = 5000 ∧
      (resolveOptions (some ⟨7, true, false, none⟩)).Capacity = 7 ∧
      (resolveOptions (some ⟨9, false, true, none⟩)).Capacity = 9 ∧
      (resolveOptions (some ⟨3, false, false, none⟩)).TrackByObjectCount = true ∧
      (resolveOptions (some ⟨3, false, false, none⟩)).Capacity = 5000 := by
  refine ⟨(c5_defaults ⟨0, true, false, none⟩).1 rfl rfl,
    (c5_defaults ⟨0, false, true, none⟩).2.1 rfl rfl rfl,
    (c5_defaults ⟨7, true, false, none⟩).2.2.1 (Or.inl rfl) (by decide),
    (c5_defaults ⟨9, false, true, none⟩).2.2.1 (Or.inr rfl) (by decide),
    ((c5_defaults ⟨3, false, false, none⟩).2.2.2 rfl rfl).1,
    ((c5_defaults ⟨3, false, false, none⟩).2.2.2 rfl rfl).2⟩

/-- C10: the expiration durations passed to `Set` have no effect: the same
keys and values yield the same result and cache state for any two
expiration sequences. -/
theorem c10_expirations_ignored (s : lruCache) (keys : List String)
    (values : List (List Nat)) (e1 e2 : List Int) :
    lruCache.Set s keys values e1 = lruCache.Set s keys values e2 := rfl

/-- C8: construction and every operation on the default backend are
error-free: the factory always returns a nil error, and every `Set`, `Get`,
`Delete`, `Truncate` and `Close` invocation that returns at all returns a
nil error. -/
theorem c8_error_free (o? : Option LRUOptions) (s : lruCache)
    (keys : List String) (values : List (List Nat)) (exps : List Int) :
    (NewLRU o? ()).2 = none ∧
      (∀ r, lruCache.Set s keys values exps = some r → r.2 = none) ∧
      (∀ r, lruCache.Get s keys = some r → r.2.1 = none) ∧
      (lruCache.Delete s keys).2 = none ∧
      (lruCache.Truncate s).2 = none ∧
      (lruCache.Close s).2 = none := by
  refine ⟨rfl, ?_, ?_, rfl, rfl, rfl⟩
  · intro r hr
    unfold lruCache.Set at hr
    cases h : setLoop s keys values with
    | none => rw [h] at hr; cases hr
    | some s2 => rw [h] at hr; cases hr; rfl
  · intro r hr
    unfold lruCache.Get at hr
    cases h : getLoop s keys with
    | none => rw [h] at hr; cases hr
    | some p => rw [h] at hr; cases hr; rfl

/-- C8 witness: every operation evaluated on concrete inputs returns a nil
error. -/
theorem c8_error_free_witness :
    (NewLRU none ()).2 = none ∧
      ((setOne ⟨false, true, ⟨[], 2⟩⟩ "k" [1], (none : Option String)).2 = none) ∧
      (([(none : Option (List Nat))], (none : Option String),
          (⟨false, true, ⟨[], 2⟩⟩ : lruCache)).2.1 = none) ∧
      (lruCache.Delete ⟨false, true, ⟨[], 2⟩⟩ ["k"]).2 = none ∧
      (lruCache.Truncate ⟨false, true, ⟨[], 2⟩⟩).2 = none ∧
      (lruCache.Close ⟨false, true, ⟨[], 2⟩⟩).2 = none := by
  have h := c8_error_free none ⟨false, true, ⟨[], 2⟩⟩ ["k"] [[1]] [0]
  exact ⟨h.1, h.2.1 _ rfl, h.2.2.1 _ rfl, h.2.2.2.1, h.2.2.2.2.1, h.2.2.2.2.2⟩

/-- `getLoop` over an emptied cache: every key is a miss and the state is
unchanged. -/
theorem getLoop_of_empty (s : lruCache) (h : s.cache.entries = []) :
    ∀ keys, getLoop s keys = some (keys.map (fun _ => none), s) := by
  intro keys
  induction keys with
  | nil => rfl
  | cons k ks ih =>
    have hget : s.cache.get k = (none, s.cache) := by
      unfold Cache.get
      rw [h]
      rfl
    simp [getLoop, hget, ih]

/-- C9: `Truncate` empties the cache so every subsequent `Get` misses on
all keys; `Close` has exactly the clearing effect of `Truncate` and is
idempotent, succeeding on repeated calls. -/
theorem c9_truncate_close (s : lruCache) (keys : List String) :
    ((lruCache.Truncate s).1.cache.entries = [] ∧ (lruCache.Truncate s).2 = none) ∧
      lruCache.Get (lruCache.Truncate s).1 keys
        = some (keys.map (fun _ => none), none, (lruCache.Truncate s).1) ∧
      lruCache.Close s = lruCache.Truncate s ∧
      lruCache.Close (lruCache.Close s).1 = lruCache.Close s := by
  refine ⟨⟨rfl, rfl⟩, ?_, rfl, rfl⟩
  have h := getLoop_of_empty (lruCache.Truncate s).1 rfl keys
  simp [lruCache.Get, h]

/-! ## Lookup lemmas for promotion and insertion -/

/-- Members of `eraseKey k l` never carry the key `k`. -/
theorem not_beq_of_mem_eraseKey (k : String) (l : List (String × LruValue))
    (x : String × LruValue) (hx : x ∈ eraseKey k l) : (x.1 == k) = false := by
  have h := List.mem_filter.mp hx
  simpa using h.2

/-- Removing an entry that carries the erased key. -/
theorem eraseKey_cons_of_beq {k : String} {a : String × LruValue}
    (l : List (String × LruValue)) (h : (a.1 == k) = true) :
    eraseKey k (a :: l) = eraseKey k l := by
  simp [eraseKey, List.filter_cons, h]

/-- Keeping an entry that carries a different key. -/
theorem eraseKey_cons_of_ne {k : String} {a : String × LruValue}
    (l : List (String × LruValue)) (h : (a.1 == k) = false) :
    eraseKey k (a :: l) = a :: eraseKey k l := by
  simp [eraseKey, List.filter_cons, h]

/-- Searching any key in `eraseKey k l ++ [e]`, where `e` is the first
entry of `l` carrying key `k`, finds exactly what searching `l` finds. -/
theorem find?_eraseKey_append (l : List (String × LruValue)) (k k' : String)
    (e : String × LruValue) (hfind : l.find? (fun x => x.1 == k) = some e) :
    (eraseKey k l ++ [e]).find? (fun x => x.1 == k')
      = l.find? (fun x => x.1 == k') := by
  have hbeq0 := List.find?_some hfind
  have hbeq : (e.1 == k) = true := hbeq0
  rcases eq_or_ne k' k with rfl | hkk
  · have hnone : (eraseKey k' l).find? (fun x => x.1 == k') = none := by
      rw [List.find?_eq_none]
      intro x hx
      simp [not_beq_of_mem_eraseKey k' l x hx]
    have hbeq' : ((fun x : String × LruValue => x.1 == k') e) = true := hbeq
    rw [List.find?_append, hnone, Option.none_or, hfind]
    exact List.find?_cons_of_pos _ hbeq'
  · have hflt : ∀ l2 : List (String × LruValue),
        (eraseKey k l2).find? (fun x => x.1 == k')
          = l2.find? (fun x => x.1 == k') := by
      intro l2
      induction l2 with
      | nil => rfl
      | cons a l2 ih =>
        by_cases ha : (a.1 == k) = true
        · have hak : ¬ ((fun x : String × LruValue => x.1 == k') a) = true := by
            show ¬ (a.1 == k') = true
            rw [eq_of_beq ha]
            simpa using Ne.symm hkk
          rw [eraseKey_cons_of_beq l2 ha,
            @List.find?_cons_of_neg _ (fun x => x.1 == k') a l2 hak, ih]
        · have ha0 : (a.1 == k) = false := eq_false_of_ne_true ha
          rw [eraseKey_cons_of_ne l2 ha0]
          by_cases hak : ((fun x : String × LruValue => x.1 == k') a) = true
          · rw [@List.find?_cons_of_pos _ (fun x => x.1 == k') a (eraseKey k l2) hak,
              @List.find?_cons_of_pos _ (fun x => x.1 == k') a l2 hak]
          · rw [@List.find?_cons_of_neg _ (fun x => x.1 == k') a (eraseKey k l2) hak,
              @List.find?_cons_of_neg _ (fun x => x.1 == k') a l2 hak, ih]
    have he2 : ¬ ((fun x : String × LruValue => x.1 == k') e) = true := by
      show ¬ (e.1 == k') = true
      rw [eq_of_beq hbeq]
      simpa using Ne.symm hkk
    rw [List.find?_append, hflt l]
    cases hres : l.find? (fun x => x.1 == k') with
    | none =>
      rw [@List.find?_cons_of_neg _ (fun x => x.1 == k') e [] he2]
      rfl
    | some y => rfl

/-- Looking up the key just written by the engine `set` yields the written
entry. -/
theorem find?_set_self (c : Cache) (k : String) (w : LruValue) :
    (c.set k w).entries.find? (fun x => x.1 == k) = some (k, w) := by
  obtain ⟨l2, hl2, hmem⟩ :=
    evict_append_single c.capacity (eraseKey k c.entries) (k, w)
  have hnone : l2.find? (fun x => x.1 == k) = none := by
    rw [List.find?_eq_none]
    intro x hx
    simp [not_beq_of_mem_eraseKey k c.entries x (hmem x hx)]
  have : (c.set k w).entries = l2 ++ [(k, w)] := hl2
  rw [this, List.find?_append, hnone, Option.none_or]
  simp [List.find?]

/-- C3: a `Set` of one key/value immediately followed by a `Get` of that
key returns exactly that value (for a backend whose mode flags are
consistent, i.e. count mode exactly when not size mode). -/
theorem c3_round_trip (s : lruCache) (h : s.trackByObjectCount = !s.trackBySize)
    (k : String) (v : List Nat) (e : Int) :
    ∃ s1 s2, lruCache.Set s [k] [v] [e] = some (s1, none) ∧
      lruCache.Get s1 [k] = some ([some v], none, s2) := by
  refine ⟨setOne s k v, ?_, rfl, ?_⟩
  · exact { setOne s k v with
      cache := { (setOne s k v).cache with
        entries := eraseKey k (setOne s k v).cache.entries
          ++ [(k, wrapValue s.trackBySize v)] } }
  have hf : (setOne s k v).cache.entries.find? (fun x => x.1 == k)
      = some (k, wrapValue s.trackBySize v) :=
    find?_set_self s.cache k (wrapValue s.trackBySize v)
  have hu : unwrapFor s.trackByObjectCount (wrapValue s.trackBySize v) = some v := by
    cases hb : s.trackBySize <;>
      rw [hb] at h <;>
      simp [h, wrapValue, unwrapFor, assertByCount, assertBySize]
  simp [lruCache.Get, getLoop, Cache.get, hf, hu]

/-- C3 witness: the round trip evaluated on a concrete count-mode backend. -/
theorem c3_round_trip_witness :
    ((⟨false, true, ⟨[], 5⟩⟩ : lruCache).trackByObjectCount
        = !(⟨false, true, ⟨[], 5⟩⟩ : lruCache).trackBySize) ∧
      ∃ s1 s2, lruCache.Set ⟨false, true, ⟨[], 5⟩⟩ ["k"] [[1, 2]] [0]
          = some (s1, none) ∧
        lruCache.Get s1 ["k"] = some ([some [1, 2]], none, s2) :=
  ⟨rfl, c3_round_trip ⟨false, true, ⟨[], 5⟩⟩ rfl "k" [1, 2] 0⟩

/-- C7: with both `TrackBySize` and `TrackByObjectCount` set, `Set` stores
the size-tracked wrapper while `Get`'s count branch asserts the
count-tracked wrapper, so a hit panics (modelled as `none`) instead of
returning the stored bytes. -/
theorem c7_mixed_flags_panic (s : lruCache) (h1 : s.trackBySize = true)
    (h2 : s.trackByObjectCount = true) (k : String) (v : List Nat) (e : Int) :
    ∃ s1, lruCache.Set s [k] [v] [e] = some (s1, none) ∧
      lruCache.Get s1 [k] = none := by
  refine ⟨setOne s k v, rfl, ?_⟩
  have hf : (setOne s k v).cache.entries.find? (fun x => x.1 == k)
      = some (k, wrapValue s.trackBySize v) :=
    find?_set_self s.cache k (wrapValue s.trackBySize v)
  have hu : unwrapFor s.trackByObjectCount (wrapValue s.trackBySize v) = none := by
    simp [h1, h2, wrapValue, unwrapFor, assertByCount]
  simp [lruCache.Get, getLoop, Cache.get, hf, hu]

/-- C7 witness: the misconfigured backend evaluated on a concrete input. -/
theorem c7_mixed_flags_panic_witness :
    ((⟨true, true, ⟨[], 5⟩⟩ : lruCache).trackBySize = true) ∧
      ((⟨true, true, ⟨[], 5⟩⟩ : lruCache).trackByObjectCount = true) ∧
      ∃ s1, lruCache.Set ⟨true, true, ⟨[], 5⟩⟩ ["k"] [[1, 2]] [0]
          = some (s1, none) ∧
        lruCache.Get s1 ["k"] = none :=
  ⟨rfl, rfl, c7_mixed_flags_panic ⟨true, true, ⟨[], 5⟩⟩ rfl rfl "k" [1, 2] 0⟩

/-- Engine `get` characterization: the returned value is the stored one,
promotion changes no lookup result, and every entry of the new state was
already stored. -/
theorem cacheGet_spec (c : Cache) (k : String) :
    (c.get k).1 = lookupVal k c.entries ∧
      (∀ k', lookupVal k' (c.get k).2.entries = lookupVal k' c.entries) ∧
      (∀ x ∈ (c.get k).2.entries, x ∈ c.entries) := by
  cases hf : c.entries.find? (fun x => x.1 == k) with
  | none =>
    have hg : c.get k = (none, c) := by
      unfold Cache.get
      rw [hf]
    rw [hg]
    exact ⟨by simp [lookupVal, hf], fun k' => rfl, fun x hx => hx⟩
  | some e =>
    have hg : c.get k
        = (some e.2, { c with entries := eraseKey k c.entries ++ [e] }) := by
      unfold Cache.get
      rw [hf]
    rw [hg]
    refine ⟨by simp [lookupVal, hf], ?_, ?_⟩
    · intro k'
      simp only [lookupVal]
      rw [find?_eraseKey_append c.entries k k' e hf]
    · intro x hx
      simp only at hx
      rcases List.mem_append.mp hx with hx | hx
      · exact List.mem_of_mem_filter hx
      · have hxe : x = e := by simpa using hx
        rw [hxe]
        exact List.mem_of_find?_eq_some hf

/-- `getLoop` never panics on a mode-consistent store: it returns, for each
key in order, the lookup on the initial entries passed through the mode's
type assertion. -/
theorem getLoop_spec (keys : List String) :
    ∀ s : lruCache,
      (∀ x ∈ s.cache.entries, (unwrapFor s.trackByObjectCount x.2).isSome = true) →
      ∃ s2, getLoop s keys
        = some (keys.map (fun k2 =>
            (lookupVal k2 s.cache.entries).bind (unwrapFor s.trackByObjectCount)),
          s2) := by
  induction keys with
  | nil =>
    intro s hw
    exact ⟨s, rfl⟩
  | cons k ks ih =>
    intro s hw
    obtain ⟨h1, h2, h3⟩ := cacheGet_spec s.cache k
    set c2 := (s.cache.get k).2 with hc2
    have hw2 : ∀ x ∈ (⟨s.trackBySize, s.trackByObjectCount, c2⟩ : lruCache).cache.entries,
        (unwrapFor (⟨s.trackBySize, s.trackByObjectCount, c2⟩ : lruCache).trackByObjectCount
            x.2).isSome = true := by
      intro x hx
      exact hw x (h3 x hx)
    obtain ⟨s2, hloop⟩ := ih ⟨s.trackBySize, s.trackByObjectCount, c2⟩ hw2
    simp only at hloop
    have hfun : (fun k2 => (lookupVal k2 c2.entries).bind (unwrapFor s.trackByObjectCount))
        = fun k2 => (lookupVal k2 s.cache.entries).bind (unwrapFor s.trackByObjectCount) := by
      funext k2
      rw [h2 k2]
    cases hres : (s.cache.get k).1 with
    | none =>
      have hpair : s.cache.get k = (none, c2) := by rw [hc2, ← hres]
      have hlk : lookupVal k s.cache.entries = none := by rw [← h1, hres]
      refine ⟨s2, ?_⟩
      simp only [getLoop, hpair, List.map_cons, hlk, Option.none_bind]
      rw [hloop, hfun]
      rfl
    | some itm =>
      have hpair : s.cache.get k = (some itm, c2) := by rw [hc2, ← hres]
      have hlk : lookupVal k s.cache.entries = some itm := by rw [← h1, hres]
      obtain ⟨e, hfe, he2⟩ : ∃ e, s.cache.entries.find? (fun x => x.1 == k) = some e
          ∧ e.2 = itm := by
        unfold lookupVal at hlk
        cases hfe : s.cache.entries.find? (fun x => x.1 == k) with
        | none => rw [hfe] at hlk; cases hlk
        | some e => rw [hfe] at hlk; exact ⟨e, rfl, by simpa using hlk⟩
      have hsome : (unwrapFor s.trackByObjectCount itm).isSome = true := by
        rw [← he2]
        exact hw e (List.mem_of_find?_eq_some hfe)
      obtain ⟨d, hd⟩ := Option.isSome_iff_exists.mp hsome
      refine ⟨s2, ?_⟩
      simp only [getLoop, hpair, hd, List.map_cons, hlk, Option.some_bind]
      rw [hloop, hfun]
      rfl

/-- C6: on a mode-consistent backend, `Get` returns a nil error and a value
sequence aligned index-by-index with the input keys — the stored bytes at
index i on a hit for keys[i], a `none` placeholder on a miss — whose
length always equals the length of the key sequence. -/
theorem c6_get_alignment (s : lruCache) (keys : List String)
    (hw : ∀ x ∈ s.cache.entries, (unwrapFor s.trackByObjectCount x.2).isSome = true) :
    ∃ s2, lruCache.Get s keys
        = some (keys.map (fun k2 =>
            (lookupVal k2 s.cache.entries).bind (unwrapFor s.trackByObjectCount)),
          none, s2) ∧
      (keys.map (fun k2 =>
          (lookupVal k2 s.cache.entries).bind (unwrapFor s.trackByObjectCount))).length
        = keys.length := by
  obtain ⟨s2, h⟩ := getLoop_spec keys s hw
  exact ⟨s2, by simp [lruCache.Get, h], by simp⟩

/-- C6 witness: a concrete two-key `Get` with one hit and one miss. -/
theorem c6_get_alignment_witness :
    (∀ x ∈ ([("a", LruValue.byCount [7])] : List (String × LruValue)),
        (unwrapFor true x.2).isSome = true) ∧
      ∃ s2, lruCache.Get ⟨false, true, ⟨[("a", LruValue.byCount [7])], 5⟩⟩ ["a", "b"]
          = some ([some [7], none], none, s2) ∧
        ([some [7], none] : List (Option (List Nat))).length = (["a", "b"] : List String).length := by
  refine ⟨by decide, ?_⟩
  obtain ⟨s2, h1, h2⟩ := c6_get_alignment
    ⟨false, true, ⟨[("a", LruValue.byCount [7])], 5⟩⟩ ["a", "b"] (by decide)
  exact ⟨s2, h1, h2⟩

end Objcache
